import Mathlib

/-!
Verification of the `HashTable` class in `src/main.py`.

The Python class keeps `self.collection`, a dict mapping an integer hash
code to a bucket, itself a dict mapping the original string key to its
value.  We embed both dict levels as association lists with unique keys
(Python dicts cannot hold a key twice); `dictContains`, `dictGet?`,
`dictSet` and `dictDel` model the Python operations `k in d`, `d[k]`,
`d[k] = v` and `del d[k]`.  `dictSet` overwrites the first entry for the
key in place (preserving its position, as CPython does) and appends a new
entry otherwise, and `dictDel` deletes the first entry for the key.
Values are a type parameter `V`; `lookup` returns `Option V`, with `none`
standing for the Python `None` returned when the key is absent.
-/

/-- Model of the Python membership test `k in d` on a dict `d`. -/
def dictContains {α β : Type} [DecidableEq α] (d : List (α × β)) (k : α) : Bool :=
  match d with
  | [] => false
  | (k', _) :: rest => if k' = k then true else dictContains rest k

/-- Model of the Python subscript read `d[k]`, made total with `Option`. -/
def dictGet? {α β : Type} [DecidableEq α] (d : List (α × β)) (k : α) : Option β :=
  match d with
  | [] => none
  | (k', v) :: rest => if k' = k then some v else dictGet? rest k

/-- Model of the Python assignment `d[k] = v`: overwrite the first entry
for `k` in place, or append a fresh entry at the end. -/
def dictSet {α β : Type} [DecidableEq α] (d : List (α × β)) (k : α) (v : β) :
    List (α × β) :=
  match d with
  | [] => [(k, v)]
  | (k', v') :: rest => if k' = k then (k, v) :: rest else (k', v') :: dictSet rest k v

/-- Model of the Python deletion `del d[k]`: drop the first entry for `k`. -/
def dictDel {α β : Type} [DecidableEq α] (d : List (α × β)) (k : α) :
    List (α × β) :=
  match d with
  | [] => []
  | (k', v') :: rest => if k' = k then rest else (k', v') :: dictDel rest k

/-- The state of the Python `HashTable` object: its `collection` attribute. -/
structure HashTable (V : Type) where
  collection : List (Nat × List (String × V))

/-- `HashTable.__init__`: `self.collection = {}`. -/
def HashTable.init (V : Type) : HashTable V := ⟨[]⟩

/-- `HashTable.hash`: start from 0 and add `ord(c)` for each character `c`
of the string, in order.  Python `ord` is the code point, `Char.toNat`. -/
def HashTable.hash (string : String) : Nat :=
  string.data.foldl (fun h c => h + c.toNat) 0

/-- `HashTable.add`: compute the hash, create an empty bucket at it if
none exists, then set `self.collection[computed_hash][key] = value`
(the in-place mutation of the bucket dict becomes replacing the
collection entry at `computed_hash` by the updated bucket). -/
def HashTable.add {V : Type} (t : HashTable V) (key : String) (value : V) :
    HashTable V :=
  let computed_hash := HashTable.hash key
  let c := if dictContains t.collection computed_hash then t.collection
           else dictSet t.collection computed_hash []
  ⟨dictSet c computed_hash
    (dictSet ((dictGet? c computed_hash).getD []) key value)⟩

/-- `HashTable.remove`: if the bucket at the computed hash exists and
contains the key, delete that entry from the bucket; otherwise do
nothing.  The bucket itself is never deleted. -/
def HashTable.remove {V : Type} (t : HashTable V) (key : String) : HashTable V :=
  let computed_hash := HashTable.hash key
  if dictContains t.collection computed_hash then
    let bucket := (dictGet? t.collection computed_hash).getD []
    if dictContains bucket key then
      ⟨dictSet t.collection computed_hash (dictDel bucket key)⟩
    else t
  else t

/-- `HashTable.lookup`: if the bucket at the computed hash exists and
contains the key, return its value, else return `None` (here `none`). -/
def HashTable.lookup {V : Type} (t : HashTable V) (key : String) : Option V :=
  let computed_hash := HashTable.hash key
  if dictContains t.collection computed_hash then
    let bucket := (dictGet? t.collection computed_hash).getD []
    if dictContains bucket key then dictGet? bucket key
    else none
  else none

/-- The spec's own wording of the hash (§4.1): the sum of the numeric
code-point values of every character in the key. -/
def specHash (key : String) : Nat := (key.data.map Char.toNat).sum

/-- A dict (at either level) has no two entries with the same key. -/
def keysNodup {α β : Type} (d : List (α × β)) : Prop := (d.map Prod.fst).Nodup

/-- Every bucket of the table has unique keys — automatic for the Python
dicts, stated explicitly for the association-list model. -/
def HashTable.bucketsNodup {V : Type} (t : HashTable V) : Prop :=
  ∀ p ∈ t.collection, keysNodup p.2

/-- The §3 invariant of the spec: the collection maps each hash code to at
most one bucket, buckets have unique keys, and every key stored in the
bucket under `h` actually hashes to `h`. -/
def HashTable.WF {V : Type} (t : HashTable V) : Prop :=
  keysNodup t.collection ∧
  ∀ p ∈ t.collection, keysNodup p.2 ∧ ∀ q ∈ p.2, HashTable.hash q.1 = p.1

/-- How many entries of the dict carry the key `k`. -/
def countKey {α β : Type} [DecidableEq α] (d : List (α × β)) (k : α) : Nat :=
  (d.filter (fun p => p.1 = k)).length

/-! ### Lemmas about the dict model -/

theorem dictContains_eq_isSome {α β : Type} [DecidableEq α]
    (d : List (α × β)) (k : α) :
    dictContains d k = (dictGet? d k).isSome := by
  induction d with
  | nil => rfl
  | cons p rest ih =>
    obtain ⟨k', v⟩ := p
    by_cases h : k' = k <;> simp [dictContains, dictGet?, h, ih]

theorem dictGet?_eq_none_of_not_contains {α β : Type} [DecidableEq α]
    {d : List (α × β)} {k : α} (h : dictContains d k = false) :
    dictGet? d k = none := by
  rw [dictContains_eq_isSome] at h
  exact Option.not_isSome_iff_eq_none.mp (by simp [h])

theorem dictGet?_set_self {α β : Type} [DecidableEq α]
    (d : List (α × β)) (k : α) (v : β) :
    dictGet? (dictSet d k v) k = some v := by
  induction d with
  | nil => simp [dictSet, dictGet?]
  | cons p rest ih =>
    obtain ⟨k', v'⟩ := p
    by_cases h : k' = k <;> simp [dictSet, dictGet?, h, ih]

theorem dictGet?_set_ne {α β : Type} [DecidableEq α]
    (d : List (α × β)) (k k' : α) (v : β) (h : k' ≠ k) :
    dictGet? (dictSet d k v) k' = dictGet? d k' := by
  induction d with
  | nil => simp [dictSet, dictGet?, Ne.symm h]
  | cons p rest ih =>
    obtain ⟨k'', v''⟩ := p
    by_cases hk : k'' = k
    · subst hk
      simp [dictSet, dictGet?, Ne.symm h]
    · simp [dictSet, dictGet?, hk, ih]

theorem dictSet_dictSet {α β : Type} [DecidableEq α]
    (d : List (α × β)) (k : α) (v w : β) :
    dictSet (dictSet d k v) k w = dictSet d k w := by
  induction d with
  | nil => simp [dictSet]
  | cons p rest ih =>
    obtain ⟨k', v'⟩ := p
    by_cases h : k' = k <;> simp [dictSet, h, ih]

theorem dictContains_set_self {α β : Type} [DecidableEq α]
    (d : List (α × β)) (k : α) (v : β) :
    dictContains (dictSet d k v) k = true := by
  induction d with
  | nil => simp [dictSet, dictContains]
  | cons p rest ih =>
    obtain ⟨k', v'⟩ := p
    by_cases h : k' = k <;> simp [dictSet, dictContains, h, ih]

theorem mem_dictSet_of_ne {α β : Type} [DecidableEq α]
    {d : List (α × β)} {p : α × β} (k : α) (v : β)
    (hp : p ∈ d) (hne : p.1 ≠ k) : p ∈ dictSet d k v := by
  induction d with
  | nil => simp at hp
  | cons q rest ih =>
    obtain ⟨k'', v''⟩ := q
    by_cases hk : k'' = k
    · subst hk
      rcases List.mem_cons.mp hp with hq | hq
      · exact absurd (by simp [hq]) hne
      · simp only [dictSet, if_pos rfl]
        exact List.mem_cons_of_mem _ hq
    · rcases List.mem_cons.mp hp with hq | hq
      · simp [dictSet, hk, hq]
      · simp only [dictSet, if_neg hk]
        exact List.mem_cons_of_mem _ (ih hq)

theorem mem_dictSet {α β : Type} [DecidableEq α]
    {d : List (α × β)} {k : α} {v : β} {p : α × β}
    (hp : p ∈ dictSet d k v) : p = (k, v) ∨ p ∈ d := by
  induction d with
  | nil => simp [dictSet] at hp; simp [hp]
  | cons q rest ih =>
    obtain ⟨k', v'⟩ := q
    by_cases h : k' = k
    · simp [dictSet, h] at hp
      rcases hp with hp | hp
      · exact Or.inl (by simp [hp])
      · exact Or.inr (List.mem_cons_of_mem _ hp)
    · simp [dictSet, h] at hp
      rcases hp with hp | hp
      · exact Or.inr (by simp [hp])
      · rcases ih hp with hq | hq
        · exact Or.inl hq
        · exact Or.inr (List.mem_cons_of_mem _ hq)

theorem mem_dictDel {α β : Type} [DecidableEq α]
    {d : List (α × β)} {k : α} {p : α × β}
    (hp : p ∈ dictDel d k) : p ∈ d := by
  induction d with
  | nil => simp [dictDel] at hp
  | cons q rest ih =>
    obtain ⟨k', v'⟩ := q
    by_cases h : k' = k
    · simp [dictDel, h] at hp
      exact List.mem_cons_of_mem _ hp
    · simp [dictDel, h] at hp
      rcases hp with hp | hp
      · simp [hp]
      · exact List.mem_cons_of_mem _ (ih hp)

theorem dictGet?_mem {α β : Type} [DecidableEq α]
    {d : List (α × β)} {k : α} {b : β}
    (h : dictGet? d k = some b) : (k, b) ∈ d := by
  induction d with
  | nil => simp [dictGet?] at h
  | cons q rest ih =>
    obtain ⟨k', v'⟩ := q
    by_cases hk : k' = k
    · simp [dictGet?, hk] at h
      simp [hk, h]
    · simp [dictGet?, hk] at h
      exact List.mem_cons_of_mem _ (ih h)

theorem dictContains_iff_exists_mem {α β : Type} [DecidableEq α]
    (d : List (α × β)) (k : α) :
    dictContains d k = true ↔ ∃ v, (k, v) ∈ d := by
  induction d with
  | nil => simp [dictContains]
  | cons q rest ih =>
    obtain ⟨k', v'⟩ := q
    by_cases hk : k' = k
    · subst hk
      simp [dictContains]
    · simp [dictContains, hk, ih, Ne.symm hk]

theorem dictContains_set_of {α β : Type} [DecidableEq α]
    {d : List (α × β)} {h' : α} (k : α) (v : β)
    (hd : dictContains d h' = true) :
    dictContains (dictSet d k v) h' = true := by
  by_cases hk : h' = k
  · subst hk
    exact dictContains_set_self d h' v
  · rcases (dictContains_iff_exists_mem d h').mp hd with ⟨w, hw⟩
    exact (dictContains_iff_exists_mem _ h').mpr ⟨w, mem_dictSet_of_ne k v hw hk⟩

theorem dictContains_iff_mem_map {α β : Type} [DecidableEq α]
    (d : List (α × β)) (k : α) :
    dictContains d k = true ↔ k ∈ d.map Prod.fst := by
  rw [dictContains_iff_exists_mem]
  constructor
  · rintro ⟨v, hv⟩
    exact List.mem_map_of_mem Prod.fst hv
  · intro h
    rcases List.mem_map.mp h with ⟨⟨a, b⟩, hm, he⟩
    exact ⟨b, by simpa [← he] using hm⟩

theorem map_fst_dictSet {α β : Type} [DecidableEq α]
    (d : List (α × β)) (k : α) (v : β) :
    (dictSet d k v).map Prod.fst =
      if dictContains d k then d.map Prod.fst else d.map Prod.fst ++ [k] := by
  induction d with
  | nil => simp [dictSet, dictContains]
  | cons p rest ih =>
    obtain ⟨k', v'⟩ := p
    by_cases h : k' = k
    · simp [dictSet, dictContains, h]
    · simp [dictSet, dictContains, h, ih]
      by_cases hc : dictContains rest k <;> simp [hc]

theorem keysNodup_dictSet {α β : Type} [DecidableEq α]
    {d : List (α × β)} (k : α) (v : β) (hd : keysNodup d) :
    keysNodup (dictSet d k v) := by
  unfold keysNodup at *
  rw [map_fst_dictSet]
  by_cases hc : dictContains d k
  · simpa [hc]
  · rw [if_neg hc, List.nodup_append]
    refine ⟨hd, List.nodup_singleton k, ?_⟩
    intro a ha hb
    rw [List.mem_singleton] at hb
    subst hb
    exact absurd ((dictContains_iff_mem_map d a).mpr ha) (by simpa using hc)

theorem dictDel_sublist {α β : Type} [DecidableEq α]
    (d : List (α × β)) (k : α) : (dictDel d k).Sublist d := by
  induction d with
  | nil => simp [dictDel]
  | cons p rest ih =>
    obtain ⟨k', v'⟩ := p
    by_cases h : k' = k
    · simp only [dictDel, if_pos h]
      exact List.Sublist.cons _ (List.Sublist.refl rest)
    · simp only [dictDel, if_neg h]
      exact List.Sublist.cons₂ _ ih

theorem keysNodup_dictDel {α β : Type} [DecidableEq α]
    {d : List (α × β)} (k : α) (hd : keysNodup d) :
    keysNodup (dictDel d k) :=
  List.Nodup.sublist (List.Sublist.map Prod.fst (dictDel_sublist d k)) hd

theorem dictContains_del_self {α β : Type} [DecidableEq α]
    {d : List (α × β)} (k : α) (hd : keysNodup d) :
    dictContains (dictDel d k) k = false := by
  induction d with
  | nil => rfl
  | cons p rest ih =>
    obtain ⟨k', v'⟩ := p
    rw [keysNodup, List.map_cons, List.nodup_cons] at hd
    by_cases h : k' = k
    · subst h
      simp only [dictDel, if_pos rfl]
      by_contra hc
      rw [Bool.not_eq_false, dictContains_iff_mem_map] at hc
      exact hd.1 hc
    · simp only [dictDel, if_neg h, dictContains, if_neg h]
      exact ih hd.2

theorem countKey_eq_zero {α β : Type} [DecidableEq α]
    {d : List (α × β)} {k : α} (h : k ∉ d.map Prod.fst) :
    countKey d k = 0 := by
  induction d with
  | nil => rfl
  | cons p rest ih =>
    obtain ⟨k', v'⟩ := p
    simp only [List.map_cons, List.mem_cons] at h
    push_neg at h
    unfold countKey at *
    rw [List.filter_cons]
    simp only [Ne.symm h.1, decide_False, if_false]
    exact ih h.2

theorem dictSet_cons_eq {α β : Type} [DecidableEq α]
    (k' : α) (v' : β) (rest : List (α × β)) (k : α) (v : β) (h : k' = k) :
    dictSet ((k', v') :: rest) k v = (k, v) :: rest := by
  simp [dictSet, h]

theorem dictSet_cons_ne {α β : Type} [DecidableEq α]
    (k' : α) (v' : β) (rest : List (α × β)) (k : α) (v : β) (h : k' ≠ k) :
    dictSet ((k', v') :: rest) k v = (k', v') :: dictSet rest k v := by
  simp [dictSet, h]

theorem countKey_set_of_nodup {α β : Type} [DecidableEq α]
    {d : List (α × β)} (k : α) (v : β) (hd : keysNodup d) :
    countKey (dictSet d k v) k = 1 := by
  induction d with
  | nil => simp [dictSet, countKey]
  | cons p rest ih =>
    obtain ⟨k', v'⟩ := p
    rw [keysNodup, List.map_cons, List.nodup_cons] at hd
    by_cases h : k' = k
    · subst h
      rw [dictSet_cons_eq _ _ _ _ _ rfl]
      have h0 : countKey rest k' = 0 := countKey_eq_zero hd.1
      unfold countKey at *
      rw [List.filter_cons]
      simp [h0]
    · rw [dictSet_cons_ne _ _ _ _ _ h]
      have h1 := ih hd.2
      unfold countKey at *
      rw [List.filter_cons]
      simp [h, h1]

/-! ### Characterizations of the table operations -/

theorem foldl_add_toNat (l : List Char) (n : Nat) :
    l.foldl (fun h c => h + c.toNat) n = n + (l.map Char.toNat).sum := by
  induction l generalizing n with
  | nil => simp
  | cons c rest ih => simp [List.foldl, ih, Nat.add_assoc]

theorem hash_eq_specHash (s : String) : HashTable.hash s = specHash s := by
  simpa [HashTable.hash, specHash] using foldl_add_toNat s.data 0

theorem HashTable.add_collection_eq {V : Type} (t : HashTable V)
    (k : String) (v : V) :
    (t.add k v).collection =
      dictSet t.collection (HashTable.hash k)
        (dictSet ((dictGet? t.collection (HashTable.hash k)).getD []) k v) := by
  unfold HashTable.add
  by_cases h : dictContains t.collection (HashTable.hash k)
  · simp [h]
  · have hn : dictGet? t.collection (HashTable.hash k) = none :=
      dictGet?_eq_none_of_not_contains (by simpa using h)
    simp [h, hn, dictGet?_set_self, dictSet_dictSet]

theorem HashTable.lookup_eq {V : Type} (t : HashTable V) (k : String) :
    t.lookup k =
      match dictGet? t.collection (HashTable.hash k) with
      | some b => dictGet? b k
      | none => none := by
  unfold HashTable.lookup
  rcases h : dictGet? t.collection (HashTable.hash k) with _ | b
  · simp [dictContains_eq_isSome, h]
  · simp only [dictContains_eq_isSome, h, Option.isSome_some, if_true,
      Option.getD_some]
    rcases hb : dictGet? b k with _ | v <;> simp [hb]

theorem HashTable.remove_eq {V : Type} (t : HashTable V) (k : String) :
    t.remove k =
      match dictGet? t.collection (HashTable.hash k) with
      | some b =>
          if dictContains b k then
            ⟨dictSet t.collection (HashTable.hash k) (dictDel b k)⟩
          else t
      | none => t := by
  unfold HashTable.remove
  rcases h : dictGet? t.collection (HashTable.hash k) with _ | b
  · simp [dictContains_eq_isSome, h]
  · simp [dictContains_eq_isSome, h]

theorem HashTable.remove_noop {V : Type} (t : HashTable V) (k : String)
    (h : ∀ b, dictGet? t.collection (HashTable.hash k) = some b →
      dictContains b k = false) :
    t.remove k = t := by
  rw [HashTable.remove_eq]
  rcases hb : dictGet? t.collection (HashTable.hash k) with _ | b
  · rfl
  · simp [h b hb]

theorem HashTable.lookup_add_self {V : Type} (t : HashTable V)
    (k : String) (v : V) :
    (t.add k v).lookup k = some v := by
  rw [HashTable.lookup_eq, HashTable.add_collection_eq, dictGet?_set_self]
  exact dictGet?_set_self _ k v

theorem HashTable.lookup_init {V : Type} (k : String) :
    (HashTable.init V).lookup k = none := by
  rw [HashTable.lookup_eq]
  rfl

theorem HashTable.lookup_absent {V : Type} (t : HashTable V) (k : String)
    (h : ∀ b, dictGet? t.collection (HashTable.hash k) = some b →
      dictContains b k = false) :
    t.lookup k = none := by
  rw [HashTable.lookup_eq]
  rcases hb : dictGet? t.collection (HashTable.hash k) with _ | b
  · rfl
  · have := h b hb
    rw [dictContains_eq_isSome] at this
    simpa using Option.not_isSome_iff_eq_none.mp (by simp [this])

/-! ### Invariant preservation and frame lemmas -/

theorem HashTable.wf_init (V : Type) : (HashTable.init V).WF := by
  refine ⟨List.nodup_nil, ?_⟩
  intro p hp
  exact absurd hp (List.not_mem_nil p)

theorem HashTable.wf_add {V : Type} (t : HashTable V) (k : String) (v : V)
    (hwf : t.WF) : (t.add k v).WF := by
  obtain ⟨hnd, hbk⟩ := hwf
  rw [HashTable.WF, HashTable.add_collection_eq]
  refine ⟨keysNodup_dictSet _ _ hnd, ?_⟩
  intro p hp
  rcases mem_dictSet hp with hp | hp
  · subst hp
    have hb0nd : keysNodup ((dictGet? t.collection (HashTable.hash k)).getD []) := by
      rcases hg : dictGet? t.collection (HashTable.hash k) with _ | b
      · simp [keysNodup]
      · simpa using (hbk _ (dictGet?_mem hg)).1
    have hb0hash : ∀ q ∈ (dictGet? t.collection (HashTable.hash k)).getD [],
        HashTable.hash q.1 = HashTable.hash k := by
      rcases hg : dictGet? t.collection (HashTable.hash k) with _ | b
      · simp
      · intro q hq
        simpa using (hbk _ (dictGet?_mem hg)).2 q (by simpa using hq)
    refine ⟨keysNodup_dictSet _ _ hb0nd, ?_⟩
    intro q hq
    rcases mem_dictSet hq with hq | hq
    · subst hq
      rfl
    · exact hb0hash q hq
  · exact hbk p hp

theorem HashTable.remove_noop_of_none {V : Type} (t : HashTable V) (k : String)
    (hg : dictGet? t.collection (HashTable.hash k) = none) : t.remove k = t := by
  apply HashTable.remove_noop
  intro b hb2
  rw [hg] at hb2
  exact absurd hb2 (by simp)

theorem HashTable.remove_noop_of_not_contains {V : Type} (t : HashTable V)
    (k : String) (b : List (String × V))
    (hg : dictGet? t.collection (HashTable.hash k) = some b)
    (hc : dictContains b k = false) : t.remove k = t := by
  apply HashTable.remove_noop
  intro b2 hb2
  rw [hg] at hb2
  injection hb2 with h3
  subst h3
  exact hc

theorem HashTable.remove_collection_of_contains {V : Type} (t : HashTable V)
    (k : String) (b : List (String × V))
    (hg : dictGet? t.collection (HashTable.hash k) = some b)
    (hc : dictContains b k = true) :
    (t.remove k).collection =
      dictSet t.collection (HashTable.hash k) (dictDel b k) := by
  unfold HashTable.remove
  have h1 : dictContains t.collection (HashTable.hash k) = true := by
    rw [dictContains_eq_isSome, hg]
    rfl
  simp [h1, hg, hc]

theorem HashTable.wf_remove {V : Type} (t : HashTable V) (k : String)
    (hwf : t.WF) : (t.remove k).WF := by
  rcases hg : dictGet? t.collection (HashTable.hash k) with _ | b
  · rw [HashTable.remove_noop_of_none t k hg]
    exact hwf
  · by_cases hc : dictContains b k
    · obtain ⟨hnd, hbk⟩ := hwf
      rw [HashTable.WF, HashTable.remove_collection_of_contains t k b hg hc]
      refine ⟨keysNodup_dictSet _ _ hnd, ?_⟩
      intro p hp
      rcases mem_dictSet hp with hp | hp
      · subst hp
        have hb := hbk _ (dictGet?_mem hg)
        refine ⟨keysNodup_dictDel _ hb.1, ?_⟩
        intro q hq
        exact hb.2 q (mem_dictDel hq)
      · exact hbk p hp
    · rw [HashTable.remove_noop_of_not_contains t k b hg (by simpa using hc)]
      exact hwf

theorem HashTable.wf_key_in_hash_bucket {V : Type} (t : HashTable V)
    (hwf : t.WF) (k : String) (h : Nat) (b : List (String × V))
    (hb : dictGet? t.collection h = some b) (hk : dictContains b k = true) :
    h = HashTable.hash k := by
  rcases (dictContains_iff_exists_mem b k).mp hk with ⟨v, hv⟩
  exact ((hwf.2 _ (dictGet?_mem hb)).2 _ hv).symm

theorem HashTable.lookup_add_ne {V : Type} (t : HashTable V)
    (k k' : String) (v : V) (hne : k' ≠ k) :
    (t.add k v).lookup k' = t.lookup k' := by
  rw [HashTable.lookup_eq, HashTable.lookup_eq, HashTable.add_collection_eq]
  by_cases hh : HashTable.hash k' = HashTable.hash k
  · rw [hh, dictGet?_set_self]
    rcases hg : dictGet? t.collection (HashTable.hash k) with _ | b
    · show dictGet? (dictSet ((none : Option (List (String × V))).getD []) k v) k' = none
      rw [dictGet?_set_ne _ _ _ _ hne]
      rfl
    · show dictGet? (dictSet ((some b).getD []) k v) k' = dictGet? b k'
      rw [Option.getD_some, dictGet?_set_ne _ _ _ _ hne]
  · rw [dictGet?_set_ne _ _ _ _ hh]

theorem HashTable.contains_add_of {V : Type} (t : HashTable V)
    (k : String) (v : V) (h : Nat)
    (hc : dictContains t.collection h = true) :
    dictContains (t.add k v).collection h = true := by
  rw [HashTable.add_collection_eq]
  exact dictContains_set_of _ _ hc

theorem HashTable.contains_remove_of {V : Type} (t : HashTable V)
    (k : String) (h : Nat)
    (hc : dictContains t.collection h = true) :
    dictContains (t.remove k).collection h = true := by
  rcases hg : dictGet? t.collection (HashTable.hash k) with _ | b
  · rw [HashTable.remove_noop_of_none t k hg]
    exact hc
  · by_cases hck : dictContains b k
    · rw [HashTable.remove_collection_of_contains t k b hg hck]
      exact dictContains_set_of _ _ hc
    · rw [HashTable.remove_noop_of_not_contains t k b hg (by simpa using hck)]
      exact hc

theorem HashTable.remove_last_entry {V : Type} (t : HashTable V)
    (k : String) (v0 : V)
    (hg : dictGet? t.collection (HashTable.hash k) = some [(k, v0)]) :
    dictGet? (t.remove k).collection (HashTable.hash k) = some [] := by
  have hc : dictContains [(k, v0)] k = true := by simp [dictContains]
  rw [HashTable.remove_collection_of_contains t k [(k, v0)] hg hc]
  have hdel : dictDel [(k, v0)] k = [] := by simp [dictDel]
  rw [hdel]
  exact dictGet?_set_self _ _ _

theorem HashTable.remove_remove {V : Type} (t : HashTable V) (k : String)
    (hb : t.bucketsNodup) : (t.remove k).remove k = t.remove k := by
  rcases hg : dictGet? t.collection (HashTable.hash k) with _ | b0
  · have h1 : t.remove k = t := HashTable.remove_noop_of_none t k hg
    rw [h1]
    exact h1
  · by_cases hck : dictContains b0 k
    · apply HashTable.remove_noop
      intro b hb2
      rw [HashTable.remove_collection_of_contains t k b0 hg hck,
        dictGet?_set_self] at hb2
      injection hb2 with h3
      subst h3
      exact dictContains_del_self k (hb _ (dictGet?_mem hg))
    · have h1 : t.remove k = t :=
        HashTable.remove_noop_of_not_contains t k b0 hg (by simpa using hck)
      rw [h1]
      exact h1

/-! ### The claims -/

/-- C1: for every key `k` (any string, including the empty one) and every
value `v` (including a value playing the role of Python `None`), `add(k, v)`
followed immediately by `lookup(k)` on the same container returns `v`. -/
theorem claim_C1_add_then_lookup {V : Type} (t : HashTable V) (k : String) (v : V) :
    (t.add k v).lookup k = some v :=
  HashTable.lookup_add_self t k v

/-- C2: for every string key the hash equals the sum of the code points of
its characters (the spec's formula `specHash`), the empty string hashes
to 0, and the function is deterministic: two calls on the same string
yield the same integer. -/
theorem claim_C2_hash_formula :
    (∀ s : String, HashTable.hash s = specHash s) ∧
    HashTable.hash "" = 0 ∧
    ∀ s : String, HashTable.hash s = HashTable.hash s :=
  ⟨hash_eq_specHash, rfl, fun _ => rfl⟩

/-- C3: the bucket-placement invariant `WF` — collection keys unique,
bucket keys unique, every stored key sitting in the bucket registered
under its own hash code — holds for the freshly constructed container and
is preserved by `add` and `remove` (`lookup` does not modify the state in
this embedding: it is a pure function of the container).  Under `WF`, a
key contained in the bucket found at code `h` forces `h = hash key`, so
each stored key appears in exactly the one bucket at its hash code. -/
theorem claim_C3_placement_invariant (V : Type) :
    (HashTable.init V).WF ∧
    (∀ (t : HashTable V) (k : String) (v : V), t.WF → (t.add k v).WF) ∧
    (∀ (t : HashTable V) (k : String), t.WF → (t.remove k).WF) ∧
    (∀ (t : HashTable V), t.WF → ∀ (k : String) (h : Nat) (b : List (String × V)),
      dictGet? t.collection h = some b → dictContains b k = true →
      h = HashTable.hash k) :=
  ⟨HashTable.wf_init V,
   fun t k v hwf => HashTable.wf_add t k v hwf,
   fun t k hwf => HashTable.wf_remove t k hwf,
   fun t hwf k h b hb hk => HashTable.wf_key_in_hash_bucket t hwf k h b hb hk⟩

/-- Witness for C3 at concrete inputs: the preserved invariant after an
`add` and a `remove`, and the placement of `"ab"` in bucket 195. -/
theorem claim_C3_witness :
    ((HashTable.init Nat).add "ab" 1).WF ∧
    (((HashTable.init Nat).add "ab" 1).remove "ab").WF ∧
    (195 : Nat) = HashTable.hash "ab" := by
  have h0 : (HashTable.init Nat).WF :=
    ⟨List.nodup_nil, fun p hp => absurd hp (List.not_mem_nil p)⟩
  have h1 : ((HashTable.init Nat).add "ab" 1).WF :=
    (claim_C3_placement_invariant Nat).2.1 (HashTable.init Nat) "ab" 1 h0
  refine ⟨h1, (claim_C3_placement_invariant Nat).2.2.1 _ "ab" h1, ?_⟩
  exact (claim_C3_placement_invariant Nat).2.2.2 _ h1 "ab" 195 [("ab", 1)]
    (by decide) (by decide)

/-- C4: the anagrams `"ab"` and `"ba"` hash to the same code yet are
stored, retrieved and removed independently: after both adds each lookup
returns its own value, and after `remove("ab")` the key `"ba"` is intact
while `"ab"` is absent. -/
theorem claim_C4_collision_independence :
    HashTable.hash "ab" = HashTable.hash "ba" ∧
    ("ab" : String) ≠ "ba" ∧
    (((HashTable.init Nat).add "ab" 1).add "ba" 2).lookup "ab" = some 1 ∧
    (((HashTable.init Nat).add "ab" 1).add "ba" 2).lookup "ba" = some 2 ∧
    ((((HashTable.init Nat).add "ab" 1).add "ba" 2).remove "ab").lookup "ba"
      = some 2 ∧
    ((((HashTable.init Nat).add "ab" 1).add "ba" 2).remove "ab").lookup "ab"
      = none :=
  ⟨by decide, by decide, by decide, rfl, rfl, rfl⟩

/-- C5: `add(k, v1); add(k, v2); lookup(k)` returns `v2` and never `v1`,
and the bucket at `hash k` holds exactly one entry for `k` afterwards
(assuming the buckets of the starting state have unique keys, as Python
dicts always do). -/
theorem claim_C5_overwrite {V : Type} (t : HashTable V) (k : String)
    (v1 v2 : V) (hb : t.bucketsNodup) :
    ((t.add k v1).add k v2).lookup k = some v2 ∧
    (v1 ≠ v2 → ((t.add k v1).add k v2).lookup k ≠ some v1) ∧
    ∃ b, dictGet? ((t.add k v1).add k v2).collection (HashTable.hash k)
        = some b ∧ countKey b k = 1 := by
  refine ⟨HashTable.lookup_add_self (t.add k v1) k v2, ?_, ?_⟩
  · intro hne hcontra
    rw [HashTable.lookup_add_self (t.add k v1) k v2] at hcontra
    injection hcontra with h3
    exact hne h3.symm
  · refine ⟨dictSet (dictSet ((dictGet? t.collection (HashTable.hash k)).getD [])
      k v1) k v2, ?_, ?_⟩
    · rw [HashTable.add_collection_eq (t.add k v1) k v2,
        HashTable.add_collection_eq t k v1, dictGet?_set_self,
        dictGet?_set_self, Option.getD_some]
    · have hb0 : keysNodup ((dictGet? t.collection (HashTable.hash k)).getD []) := by
        rcases hg : dictGet? t.collection (HashTable.hash k) with _ | b
        · simp [keysNodup]
        · simpa using hb _ (dictGet?_mem hg)
      exact countKey_set_of_nodup k v2 (keysNodup_dictSet k v1 hb0)

/-- Witness for C5: overwriting `"a"` twice in the empty table. -/
theorem claim_C5_witness :
    (((HashTable.init Nat).add "a" 1).add "a" 2).lookup "a" = some 2 ∧
    ((1 : Nat) ≠ 2 →
      (((HashTable.init Nat).add "a" 1).add "a" 2).lookup "a" ≠ some 1) ∧
    ∃ b, dictGet? (((HashTable.init Nat).add "a" 1).add "a" 2).collection
        (HashTable.hash "a") = some b ∧ countKey b "a" = 1 :=
  claim_C5_overwrite (HashTable.init Nat) "a" 1 2
    (fun p hp => absurd hp (List.not_mem_nil p))

/-- C6: `lookup` on the freshly constructed container returns the absence
sentinel `none` for every key, and in general returns `none` whenever the
bucket at `hash k` is missing or does not contain `k`. -/
theorem claim_C6_lookup_absent :
    (∀ (V : Type) (k : String), (HashTable.init V).lookup k = none) ∧
    (∀ (V : Type) (t : HashTable V) (k : String),
      (∀ b, dictGet? t.collection (HashTable.hash k) = some b →
        dictContains b k = false) →
      t.lookup k = none) :=
  ⟨fun _ k => HashTable.lookup_init k,
   fun _ t k h => HashTable.lookup_absent t k h⟩

/-- Witness for C6: a bucket exists at `hash "ba" = hash "ab"` but does
not contain `"ba"`, and the lookup returns the sentinel. -/
theorem claim_C6_witness :
    ((HashTable.init Nat).add "ab" 1).lookup "ba" = none := by
  apply claim_C6_lookup_absent.2
  intro b hb
  have he : dictGet? ((HashTable.init Nat).add "ab" 1).collection
      (HashTable.hash "ba") = some [("ab", 1)] := by decide
  rw [he] at hb
  injection hb with h3
  subst h3
  decide

/-- C7: `remove` is a silent no-op on absent keys: whenever no bucket
exists at `hash k` or the bucket there lacks `k`, `remove k` leaves the
container state completely unchanged (and, being a total Lean function,
it never fails on any input). -/
theorem claim_C7_remove_noop_absent {V : Type} (t : HashTable V) (k : String)
    (h : ∀ b, dictGet? t.collection (HashTable.hash k) = some b →
      dictContains b k = false) :
    t.remove k = t :=
  HashTable.remove_noop t k h

/-- Witness for C7: removing the colliding-but-absent key `"ba"` leaves
the table untouched. -/
theorem claim_C7_witness :
    ((HashTable.init Nat).add "ab" 1).remove "ba"
      = (HashTable.init Nat).add "ab" 1 := by
  apply claim_C7_remove_noop_absent
  intro b hb
  have he : dictGet? ((HashTable.init Nat).add "ab" 1).collection
      (HashTable.hash "ba") = some [("ab", 1)] := by decide
  rw [he] at hb
  injection hb with h3
  subst h3
  decide

/-- C8: removal is idempotent: `remove k` twice in a row produces the same
container state as once (for states whose buckets have unique keys, as
every Python dict does). -/
theorem claim_C8_remove_idempotent {V : Type} (t : HashTable V) (k : String)
    (hb : t.bucketsNodup) : (t.remove k).remove k = t.remove k :=
  HashTable.remove_remove t k hb

/-- Witness for C8: double removal of a key that is actually present. -/
theorem claim_C8_witness :
    ((((HashTable.init Nat).add "a" 1).remove "a").remove "a")
      = ((HashTable.init Nat).add "a" 1).remove "a" := by
  apply claim_C8_remove_idempotent
  intro p hp
  have hc : ((HashTable.init Nat).add "a" 1).collection = [(97, [("a", 1)])] := by
    decide
  rw [hc] at hp
  rcases List.mem_singleton.mp hp with h3
  subst h3
  simp [keysNodup]

/-- C9: a bucket, once present at a hash code, survives every `add` and
`remove`; in particular removing the last entry of a bucket leaves the
now-empty bucket in place under its hash code. -/
theorem claim_C9_persistent_buckets :
    (∀ (V : Type) (t : HashTable V) (k : String) (v : V) (h : Nat),
      dictContains t.collection h = true →
      dictContains (t.add k v).collection h = true ∧
      dictContains (t.remove k).collection h = true) ∧
    (∀ (V : Type) (t : HashTable V) (k : String) (v0 : V),
      dictGet? t.collection (HashTable.hash k) = some [(k, v0)] →
      dictGet? (t.remove k).collection (HashTable.hash k) = some []) :=
  ⟨fun _ t k v h hc => ⟨HashTable.contains_add_of t k v h hc,
      HashTable.contains_remove_of t k h hc⟩,
   fun _ t k v0 hg => HashTable.remove_last_entry t k v0 hg⟩

/-- Witness for C9: bucket 97 survives an unrelated `add` and `remove`,
and deleting the only entry `"a"` leaves `some []` at its code. -/
theorem claim_C9_witness :
    (dictContains (((HashTable.init Nat).add "a" 5).add "b" 6).collection 97
        = true ∧
      dictContains (((HashTable.init Nat).add "a" 5).remove "b").collection 97
        = true) ∧
    dictGet? (((HashTable.init Nat).add "a" 5).remove "a").collection
      (HashTable.hash "a") = some [] :=
  ⟨claim_C9_persistent_buckets.1 Nat ((HashTable.init Nat).add "a" 5) "b" 6 97
      (by decide),
   claim_C9_persistent_buckets.2 Nat ((HashTable.init Nat).add "a" 5) "a" 5
      (by decide)⟩

/-- C10: `add(k, v)` does not change the result of `lookup(k')` for any
other key `k'`, whether or not the two keys collide. -/
theorem claim_C10_add_frame {V : Type} (t : HashTable V) (k : String) (v : V)
    (k' : String) (hne : k' ≠ k) :
    (t.add k v).lookup k' = t.lookup k' :=
  HashTable.lookup_add_ne t k k' v hne

/-- Witness for C10: adding the colliding key `"ba"` does not disturb the
lookup of `"ab"`. -/
theorem claim_C10_witness :
    (((HashTable.init Nat).add "ab" 1).add "ba" 2).lookup "ab"
      = ((HashTable.init Nat).add "ab" 1).lookup "ab" :=
  claim_C10_add_frame ((HashTable.init Nat).add "ab" 1) "ba" 2 "ab" (by decide)
